import Mathlib

/-!
Shallow embedding of `src/authorization.js`, a role-based permission
evaluator.  The JavaScript module keeps a global mutable registry
(`roles` array plus an identifier-keyed `roleMap` object); here the
registry is passed explicitly as a `Registry` value.  The unguarded
recursion of `hasPermission` over the role-inheritance graph is modelled
with a fuel parameter: `none` marks fuel exhaustion (the JS computation
would still be recursing), `some b` is the value the JS function returns.
-/

set_option autoImplicit false

namespace Authorization

/-- Mirror of the `Role` typedef: `_id`, `display`, `permissions`,
`inherits` (array of role `_id`s), `assignable`, `default`. -/
structure Role where
  _id : String
  display : String
  permissions : List String
  inherits : List String
  assignable : Bool
  default : Bool
  deriving Repr, DecidableEq

/-- Mirror of the `User` typedef's `name` object. -/
structure UserName where
  first : String
  last : String
  deriving Repr, DecidableEq

/-- Mirror of the `User` typedef: numeric `_id`, `name`, `roleIds`. -/
structure User where
  _id : Nat
  name : UserName
  roleIds : List String
  deriving Repr, DecidableEq

/-- The module-level state: the ordered `roles` array and the
identifier-keyed `roleMap` object (modelled as an ordered association
list, since JS object assignment keeps the first insertion position of a
key and overwrites its value). -/
structure Registry where
  roles : List Role
  roleMap : List (String × Role)
  deriving Repr, DecidableEq

/-- JS object assignment `roleMap[key] = value`: overwrite the value at
an existing key in place, otherwise append the new binding. -/
def mapInsert : List (String × Role) → String → Role → List (String × Role)
  | [], key, value => [(key, value)]
  | e :: rest, key, value =>
    if e.1 == key then (key, value) :: rest
    else e :: mapInsert rest key value

/-- JS property lookup `roleMap[key]` (`undefined`, i.e. `none`, when the
key is absent): the binding at the key, keys being unique by
construction. -/
def mapFind : List (String × Role) → String → Option Role
  | [], _ => none
  | e :: rest, key => if e.1 == key then some e.2 else mapFind rest key

/-- Source `loadRoles(roles)`: for each role, set `roleMap[role._id] = role` and
push the role onto the `roles` array. -/
def loadRoles (st : Registry) (roles : List Role) : Registry :=
  roles.foldl (fun s role => ⟨s.roles ++ [role], mapInsert s.roleMap role._id role⟩) st

/-- Source `getRole(roleId)`: `roleId in roleMap ? roleMap[roleId] : null`. -/
def getRole (st : Registry) (roleId : String) : Option Role :=
  mapFind st.roleMap roleId

/-- Source `getDisplay(roleId)`: the role's display string, or `null`. -/
def getDisplay (st : Registry) (roleId : String) : Option String :=
  (getRole st roleId).map Role.display

/-- Source `getDisplays(roleIds)`: order-preserving map over `getDisplay`. -/
def getDisplays (st : Registry) (roleIds : List String) : List (Option String) :=
  roleIds.map (getDisplay st)

/-- JS `String.prototype.toLowerCase` restricted to its ASCII behaviour,
on the character list of a string. -/
def lowerChars (s : String) : List Char :=
  s.data.map Char.toLower

/-- JS `String.prototype.split('.')` on a character list: the segments
between the dots, keeping empty segments. -/
def splitOnDot : List Char → List (List Char)
  | [] => [[]]
  | c :: cs =>
    let rest := splitOnDot cs
    if c = '.' then [] :: rest
    else
      match rest with
      | [] => [[c]]
      | seg :: segs => (c :: seg) :: segs

/-- The segment sequence `permission.toLowerCase().split('.')`. -/
def permissionPieces (s : String) : List String :=
  (splitOnDot (lowerChars s)).map (fun l => String.mk l)

/-- The loop body of `isPermissionMatch`: walk the two segment sequences
in parallel for `min` of the two lengths, returning `false` at the first
position where the segments differ and neither is `"*"`. -/
def segsMatch : List String → List String → Bool
  | a :: as, b :: bs =>
    if a ≠ b ∧ a ≠ "*" ∧ b ≠ "*" then false else segsMatch as bs
  | _, _ => true

/-- Source `isPermissionMatch(permissionA, permissionB)`: lower-case both,
split on `'.'`, compare position by position. -/
def isPermissionMatch (permissionA permissionB : String) : Bool :=
  segsMatch (permissionPieces permissionA) (permissionPieces permissionB)

/-- Short-circuiting OR of an `Option Bool`-valued test over a list, as
performed by the `for` loops of `hasPermission`: the first `some true`
wins, a `none` (fuel exhaustion in the recursive call) aborts, and an
exhausted list yields `some false`. -/
def orListM (f : String → Option Bool) : List String → Option Bool
  | [] => some false
  | x :: rest =>
    match f x with
    | none => none
    | some true => some true
    | some false => orListM f rest

/-- The string branch of `hasPermission(userOrRoleId, permission)`:
falsy (empty) role id gives `false`; an id absent from `roleMap` gives
`false`; otherwise test the role's own permissions with
`isPermissionMatch(permission, rolePermission)`, then recurse into each
id of `inherits`.  `fuel` bounds the recursion depth; `none` means the
JS code would still be recursing. -/
def roleHasPermission (st : Registry) : Nat → String → String → Option Bool
  | 0, _, _ => none
  | fuel + 1, roleId, permission =>
    if roleId = "" then some false
    else
      match getRole st roleId with
      | none => some false
      | some role =>
        if role.permissions.any (fun rolePermission => isPermissionMatch permission rolePermission) then
          some true
        else
          orListM (fun childRoleId => roleHasPermission st fuel childRoleId permission) role.inherits

/-- The argument shapes `hasPermission` dispatches on: `null`/absent, a
role-id string, or a user object. -/
inductive UserOrRoleId where
  | null
  | roleId (id : String)
  | user (u : User)

/-- Source `hasPermission(userOrRoleId, permission)`: `null` gives `false`; a
role-id string delegates to the role search; a user object ORs the
search over the user's `roleIds`. -/
def hasPermission (st : Registry) (fuel : Nat) : UserOrRoleId → String → Option Bool
  | .null, _ => some false
  | .roleId id, permission => roleHasPermission st fuel id permission
  | .user u, permission =>
    orListM (fun roleId => roleHasPermission st fuel roleId permission) u.roleIds

/-- Mirror of the `AuthorizationOptions` typedef; `Option` marks the
`'key' in options` presence tests, and the `static` / `all` objects are
ordered association lists (JS `for ... in` iterates keys in insertion
order). -/
structure AuthorizationOptions where
  targetId : Option Nat
  static : Option (List (String × String))
  all : Option (List (String × List String))
  deriving Repr

/-- JS `string.replace(pattern, replacement)` with a plain string
pattern: replace the first occurrence only, on character lists. -/
def replaceFirstAux (pat repl : List Char) : List Char → List Char
  | [] => if pat.isPrefixOf ([] : List Char) then repl else []
  | c :: cs =>
    if pat.isPrefixOf (c :: cs) then repl ++ (c :: cs).drop pat.length
    else c :: replaceFirstAux pat repl cs

/-- Source `permission.replace(pat, repl)` on strings (first occurrence only). -/
def replaceFirst (s pat repl : String) : String :=
  String.mk (replaceFirstAux pat.data repl.data s.data)

/-- The `static` step of `fillPermissionTemplate`: for each key, replace
the first `<key>` in every current permission with the single value. -/
def applyStatic (permissions : List String) (entries : List (String × String)) : List String :=
  entries.foldl
    (fun acc e => acc.map (fun permission => replaceFirst permission ("<" ++ e.1 ++ ">") e.2))
    permissions

/-- The `all` step of `fillPermissionTemplate`: for each key, fan every
current permission out over the key's value list, replacing the first
`<key>` with each value. -/
def applyAll (permissions : List String) (entries : List (String × List String)) : List String :=
  entries.foldl
    (fun acc e =>
      acc.flatMap (fun permission => e.2.map (fun value => replaceFirst permission ("<" ++ e.1 ++ ">") value)))
    permissions

/-- Source `fillPermissionTemplate(userId, template, options)`: start from
`[template]`; resolve `<target>` to `self`/`others` when `targetId` is
present; apply the `static` replacements; fan out over the `all`
replacements. -/
def fillPermissionTemplate (userId : Nat) (template : String) (options : AuthorizationOptions) : List String :=
  let permissions := [template]
  let permissions :=
    match options.targetId with
    | some targetId =>
      permissions.map (fun permission =>
        replaceFirst permission "<target>" (if userId = targetId then "self" else "others"))
    | none => permissions
  let permissions :=
    match options.static with
    | some entries => applyStatic permissions entries
    | none => permissions
  match options.all with
  | some entries => applyAll permissions entries
  | none => permissions

/-- The loop of `isAuthorized`: require `hasPermission(user, p)` for
every expanded permission, stopping at the first failure (and aborting
on fuel exhaustion). -/
def allPermsCheck (st : Registry) (fuel : Nat) (user : User) : List String → Option Bool
  | [] => some true
  | p :: rest =>
    match hasPermission st fuel (.user user) p with
    | none => none
    | some false => some false
    | some true => allPermsCheck st fuel user rest

/-- Source `isAuthorized(user, template, options)`: expand the template with the
user's `_id`, then AND `hasPermission(user, p)` over the expansion. -/
def isAuthorized (st : Registry) (fuel : Nat) (user : User) (template : String)
    (options : AuthorizationOptions) : Option Bool :=
  allPermsCheck st fuel user (fillPermissionTemplate user._id template options)

/-- The product of the sizes of the `all` value lists (`1` when `all` is
absent), used to state the length law of `fillPermissionTemplate`. -/
def allProduct : Option (List (String × List String)) → Nat
  | none => 1
  | some entries => entries.foldl (fun acc e => acc * e.2.length) 1

/-! ### Helper lemmas -/

/-- Unfolding lemma for the successor-fuel case of `roleHasPermission`. -/
theorem roleHasPermission_succ (st : Registry) (fuel : Nat) (roleId permission : String) :
    roleHasPermission st (fuel + 1) roleId permission =
      if roleId = "" then some false
      else
        match getRole st roleId with
        | none => some false
        | some role =>
          if role.permissions.any (fun rolePermission => isPermissionMatch permission rolePermission) then
            some true
          else
            orListM (fun childRoleId => roleHasPermission st fuel childRoleId permission) role.inherits := rfl

/-- Lemma: `segsMatch` is `true` exactly when every position inspected by the
loop (below the min of the two lengths) carries equal segments or a
wildcard. -/
theorem segsMatch_eq_true_iff :
    ∀ (l1 l2 : List String), segsMatch l1 l2 = true ↔
      ∀ (i : Nat) (h1 : i < l1.length) (h2 : i < l2.length),
        l1[i] = l2[i] ∨ l1[i] = "*" ∨ l2[i] = "*"
  | [], l2 => by
    constructor
    · intro _ i h1 _
      exact absurd h1 (Nat.not_lt_zero i)
    · intro _
      cases l2 <;> rfl
  | a :: as, [] => by
    constructor
    · intro _ i _ h2
      exact absurd h2 (Nat.not_lt_zero i)
    · intro _
      rfl
  | a :: as, b :: bs => by
    have hrec := segsMatch_eq_true_iff as bs
    by_cases h : a ≠ b ∧ a ≠ "*" ∧ b ≠ "*"
    · have hm : segsMatch (a :: as) (b :: bs) = false := by
        simp only [segsMatch, if_pos h]
      rw [hm]
      constructor
      · intro hfalse
        cases hfalse
      · intro hall
        have h0 := hall 0 (Nat.succ_pos _) (Nat.succ_pos _)
        simp only [List.getElem_cons_zero] at h0
        obtain ⟨hne, hna, hnb⟩ := h
        rcases h0 with h0 | h0 | h0 <;> contradiction
    · have hm : segsMatch (a :: as) (b :: bs) = segsMatch as bs := by
        simp only [segsMatch, if_neg h]
      have h3 : a = b ∨ a = "*" ∨ b = "*" := by tauto
      rw [hm, hrec]
      constructor
      · intro hall i h1 h2
        cases i with
        | zero => simpa using h3
        | succ n =>
          simp only [List.getElem_cons_succ]
          exact hall n (Nat.lt_of_succ_lt_succ h1) (Nat.lt_of_succ_lt_succ h2)
      · intro hall i h1 h2
        have := hall (i + 1) (Nat.succ_lt_succ h1) (Nat.succ_lt_succ h2)
        simpa using this

/-- Lemma: `segsMatch` is symmetric position by position. -/
theorem segsMatch_symm : ∀ (l1 l2 : List String), segsMatch l1 l2 = segsMatch l2 l1
  | [], [] => rfl
  | [], _ :: _ => rfl
  | _ :: _, [] => rfl
  | a :: as, b :: bs => by
    have hrec := segsMatch_symm as bs
    simp only [segsMatch]
    by_cases h : a ≠ b ∧ a ≠ "*" ∧ b ≠ "*"
    · have h2 : b ≠ a ∧ b ≠ "*" ∧ a ≠ "*" :=
        ⟨fun hba => h.1 hba.symm, h.2.2, h.2.1⟩
      rw [if_pos h, if_pos h2]
    · have h2 : ¬(b ≠ a ∧ b ≠ "*" ∧ a ≠ "*") := by
        intro hcon
        exact h ⟨fun hab => hcon.1 hab.symm, hcon.2.2, hcon.2.1⟩
      rw [if_neg h, if_neg h2, hrec]

/-- Lemma: `segsMatch` holds along the diagonal. -/
theorem segsMatch_refl : ∀ (l : List String), segsMatch l l = true
  | [] => rfl
  | a :: as => by
    simp only [segsMatch]
    rw [if_neg (fun h => h.1 rfl)]
    exact segsMatch_refl as

/-! ### Claims about the permission matcher -/

/-- C2: `isPermissionMatch a b` is true iff, after lower-casing both
strings and splitting each on `'.'`, every position below the min of the
two segment counts carries textually equal segments or a `"*"`; trailing
segments of the longer string are never inspected, so
`isPermissionMatch "users.update" "users.update.self.driver"` is true,
and comparison is case-insensitive, so `isPermissionMatch "A.B" "a.b"`
is true. -/
theorem isPermissionMatch_spec (a b : String) :
    (isPermissionMatch a b = true ↔
      ∀ (i : Nat) (h1 : i < (permissionPieces a).length) (h2 : i < (permissionPieces b).length),
        (permissionPieces a)[i] = (permissionPieces b)[i] ∨
          (permissionPieces a)[i] = "*" ∨ (permissionPieces b)[i] = "*") ∧
    isPermissionMatch "users.update" "users.update.self.driver" = true ∧
    isPermissionMatch "A.B" "a.b" = true :=
  ⟨segsMatch_eq_true_iff _ _, by decide, by decide⟩

/-- Witness for C2: the characterization instantiated at the two test
vectors of the claim. -/
theorem isPermissionMatch_spec_witness :
    isPermissionMatch "users.update" "users.update.self.driver" = true ∧
    isPermissionMatch "A.B" "a.b" = true :=
  ⟨(isPermissionMatch_spec "users.update" "users.update.self.driver").2.1,
    (isPermissionMatch_spec "A.B" "a.b").2.2⟩

/-- C4: `isPermissionMatch` is symmetric. -/
theorem isPermissionMatch_symm (a b : String) :
    isPermissionMatch a b = isPermissionMatch b a :=
  segsMatch_symm _ _

/-- Witness for C4 at a wildcard pair. -/
theorem isPermissionMatch_symm_witness :
    isPermissionMatch "users.*" "users.update" = isPermissionMatch "users.update" "users.*" :=
  isPermissionMatch_symm "users.*" "users.update"

/-- C8: `isPermissionMatch` is reflexive: a permission always matches
itself. -/
theorem isPermissionMatch_refl (p : String) : isPermissionMatch p p = true :=
  segsMatch_refl _

/-- Witness for C8 at a concrete permission. -/
theorem isPermissionMatch_refl_witness :
    isPermissionMatch "users.update.self" "users.update.self" = true :=
  isPermissionMatch_refl "users.update.self"

/-! ### Claims about the authorization decision -/

/-- The loop of `isAuthorized` answers `some true` exactly when every
required permission is granted. -/
theorem allPermsCheck_eq_true_iff (st : Registry) (fuel : Nat) (user : User) :
    ∀ (l : List String), allPermsCheck st fuel user l = some true ↔
      ∀ p ∈ l, hasPermission st fuel (.user user) p = some true
  | [] => by simp [allPermsCheck]
  | p :: rest => by
    have hrec := allPermsCheck_eq_true_iff st fuel user rest
    simp only [allPermsCheck]
    cases hp : hasPermission st fuel (.user user) p with
    | none =>
      constructor
      · intro h
        cases h
      · intro h
        have := h p (List.mem_cons_self p rest)
        rw [hp] at this
        cases this
    | some b =>
      cases b with
      | false =>
        constructor
        · intro h
          cases h
        · intro h
          have := h p (List.mem_cons_self p rest)
          rw [hp] at this
          cases this
      | true =>
        rw [hrec]
        constructor
        · intro h q hq
          rcases List.mem_cons.mp hq with hq | hq
          · rw [hq, hp]
          · exact h q hq
        · intro h q hq
          exact h q (List.mem_cons_of_mem p hq)

/-- C1: `isAuthorized user template options` returns true iff
`hasPermission user p` holds for every `p` in the sequence produced by
`fillPermissionTemplate user._id template options` (AND semantics over
the expansion); each user-level `hasPermission` call is the
short-circuiting OR of the role search over the user's role identifiers;
the AND loop short-circuits, returning false at the first permission the
user lacks. -/
theorem isAuthorized_spec (st : Registry) (fuel : Nat) (user : User) (template : String)
    (options : AuthorizationOptions) :
    (isAuthorized st fuel user template options = some true ↔
      ∀ p ∈ fillPermissionTemplate user._id template options,
        hasPermission st fuel (.user user) p = some true) ∧
    (∀ (p : String), hasPermission st fuel (.user user) p =
      orListM (fun roleId => roleHasPermission st fuel roleId p) user.roleIds) ∧
    (∀ (p : String) (rest : List String), hasPermission st fuel (.user user) p = some false →
      allPermsCheck st fuel user (p :: rest) = some false) := by
  refine ⟨allPermsCheck_eq_true_iff st fuel user _, fun p => rfl, ?_⟩
  intro p rest hp
  simp [allPermsCheck, hp]

/-- A user with no matching roles, an empty registry and empty options,
used to instantiate the hypotheses of the claims. -/
def user0 : User := ⟨1, ⟨"Ada", "Lovelace"⟩, []⟩

/-- The registry before any `loadRoles` call. -/
def st0 : Registry := ⟨[], []⟩

/-- Options with no substitutions at all. -/
def opts0 : AuthorizationOptions := ⟨none, none, none⟩

/-- Witness for C1: instantiating the short-circuit conjunct at a
concrete user who lacks the head permission. -/
theorem isAuthorized_spec_witness :
    allPermsCheck st0 1 user0 ["users.update", "users.delete"] = some false :=
  (isAuthorized_spec st0 1 user0 "users.update" opts0).2.2 "users.update" ["users.delete"] rfl

/-! ### Claims about the template expander -/

/-- One step of the `all` fold of `fillPermissionTemplate`. -/
theorem applyAll_cons (permissions : List String) (e : String × List String)
    (rest : List (String × List String)) :
    applyAll permissions (e :: rest) =
      applyAll
        (permissions.flatMap (fun permission =>
          e.2.map (fun value => replaceFirst permission ("<" ++ e.1 ++ ">") value)))
        rest := rfl

/-- One step of the `static` fold of `fillPermissionTemplate`. -/
theorem applyStatic_cons (permissions : List String) (e : String × String)
    (rest : List (String × String)) :
    applyStatic permissions (e :: rest) =
      applyStatic
        (permissions.map (fun permission => replaceFirst permission ("<" ++ e.1 ++ ">") e.2))
        rest := rfl

/-- The `all` fold maps an empty permission sequence to itself. -/
theorem applyAll_nil_start : ∀ (entries : List (String × List String)), applyAll [] entries = []
  | [] => rfl
  | e :: rest => by
    rw [applyAll_cons]
    exact applyAll_nil_start rest

/-- A key mapped to an empty value list collapses the `all` fold to the
empty sequence. -/
theorem applyAll_empty_value :
    ∀ (entries : List (String × List String)) (k : String),
      (k, ([] : List String)) ∈ entries → ∀ (permissions : List String),
        applyAll permissions entries = []
  | e :: rest, k, hmem, permissions => by
    rw [applyAll_cons]
    rcases List.mem_cons.mp hmem with heq | hmem2
    · have he2 : e.2 = ([] : List String) := by rw [← heq]
      have hflat : permissions.flatMap (fun permission =>
          e.2.map (fun value => replaceFirst permission ("<" ++ e.1 ++ ">") value)) = [] := by
        rw [he2]
        simp
      rw [hflat]
      exact applyAll_nil_start rest
    · exact applyAll_empty_value rest k hmem2 _

/-- C3: with userId 5, template `users.<action>.<target>.<role>` and
options `{targetId: 5, static: {action: "update"}, all: {role: ["driver",
"supervisor"]}}`, `fillPermissionTemplate` returns exactly
`["users.update.self.driver", "users.update.self.supervisor"]`; in
general each `all` key (in mapping order) fans every current string out
over its value list, replacing the first occurrence of `<key>` with each
value in the value list's order — a Cartesian-product fan-out. -/
theorem fillPermissionTemplate_fanout :
    fillPermissionTemplate 5 "users.<action>.<target>.<role>"
        ⟨some 5, some [("action", "update")], some [("role", ["driver", "supervisor"])]⟩
      = ["users.update.self.driver", "users.update.self.supervisor"] ∧
    ∀ (permissions : List String) (key : String) (values : List String)
      (rest : List (String × List String)),
      applyAll permissions ((key, values) :: rest) =
        applyAll
          (permissions.flatMap (fun permission =>
            values.map (fun value => replaceFirst permission ("<" ++ key ++ ">") value)))
          rest :=
  ⟨by decide, fun permissions key values rest => rfl⟩

/-- Witness for C3: the fold step instantiated at a concrete sequence
and key. -/
theorem fillPermissionTemplate_fanout_witness :
    applyAll ["users.<role>"] [("role", ["driver"])]
      = applyAll
          (["users.<role>"].flatMap (fun permission =>
            ["driver"].map (fun value => replaceFirst permission ("<" ++ "role" ++ ">") value)))
          [] :=
  fillPermissionTemplate_fanout.2 ["users.<role>"] "role" ["driver"] []

/-- C9: if `options.all` maps some key to an empty list, the expansion
is the empty sequence and `isAuthorized` is vacuously true for every
registry, user and template. -/
theorem fillPermissionTemplate_empty_all (options : AuthorizationOptions)
    (entries : List (String × List String)) (k : String)
    (hall : options.all = some entries) (hmem : (k, ([] : List String)) ∈ entries) :
    (∀ (userId : Nat) (template : String), fillPermissionTemplate userId template options = []) ∧
    (∀ (st : Registry) (fuel : Nat) (user : User) (template : String),
      isAuthorized st fuel user template options = some true) := by
  have hfill : ∀ (userId : Nat) (template : String),
      fillPermissionTemplate userId template options = [] := by
    intro userId template
    unfold fillPermissionTemplate
    rw [hall]
    exact applyAll_empty_value entries k hmem _
  refine ⟨hfill, ?_⟩
  intro st fuel user template
  unfold isAuthorized
  rw [hfill]
  rfl

/-- Options whose `all` object maps a key to an empty array. -/
def opts9 : AuthorizationOptions := ⟨none, none, some [("role", [])]⟩

/-- Witness for C9 at a concrete template and empty registry. -/
theorem fillPermissionTemplate_empty_all_witness :
    fillPermissionTemplate 1 "users.<role>" opts9 = [] ∧
    isAuthorized st0 1 user0 "users.<role>" opts9 = some true := by
  have h := fillPermissionTemplate_empty_all opts9 [("role", [])] "role" rfl
    (List.mem_singleton.mpr rfl)
  exact ⟨h.1 1 "users.<role>", h.2 st0 1 user0 "users.<role>"⟩

/-- Fanning a list out over a fixed value list multiplies its length. -/
theorem flatMap_map_length (permissions values : List String) (g : String → String → String) :
    (permissions.flatMap (fun p => values.map (g p))).length
      = permissions.length * values.length := by
  induction permissions with
  | nil => simp
  | cons p rest ih =>
    simp only [List.flatMap_cons, List.length_append, List.length_map, ih, List.length_cons]
    ring

/-- The multiplicative fold of `allProduct` factors out its accumulator. -/
theorem foldlProd_acc :
    ∀ (entries : List (String × List String)) (a : Nat),
      entries.foldl (fun acc e => acc * e.2.length) a
        = a * entries.foldl (fun acc e => acc * e.2.length) 1
  | [], a => by simp
  | e :: rest, a => by
    simp only [List.foldl_cons]
    rw [foldlProd_acc rest (a * e.2.length), foldlProd_acc rest (1 * e.2.length)]
    ring

/-- The `all` fold multiplies the sequence length by the product of the
value-list sizes. -/
theorem applyAll_length :
    ∀ (entries : List (String × List String)) (permissions : List String),
      (applyAll permissions entries).length
        = permissions.length * entries.foldl (fun acc e => acc * e.2.length) 1
  | [], permissions => by simp [applyAll]
  | e :: rest, permissions => by
    rw [applyAll_cons, applyAll_length rest, flatMap_map_length]
    simp only [List.foldl_cons]
    rw [foldlProd_acc rest (1 * e.2.length)]
    ring

/-- The `static` fold never changes the sequence length. -/
theorem applyStatic_length :
    ∀ (entries : List (String × String)) (permissions : List String),
      (applyStatic permissions entries).length = permissions.length
  | [], permissions => rfl
  | e :: rest, permissions => by
    rw [applyStatic_cons, applyStatic_length rest, List.length_map]

/-- C10: the length of `fillPermissionTemplate userId template options`
is the product of the sizes of the `all` value lists (1 when `all` is
absent), independently of the template and of the `targetId` and
`static` options, which never change the sequence length. -/
theorem fillPermissionTemplate_length (userId : Nat) (template : String)
    (options : AuthorizationOptions) :
    (fillPermissionTemplate userId template options).length = allProduct options.all := by
  rcases options with ⟨tid, stat, al⟩
  cases tid <;> cases stat <;> cases al <;>
    simp [fillPermissionTemplate, allProduct, applyStatic_length, applyAll_length,
      List.length_map]

/-- Witness for C10 at the fan-out options of the spec's example. -/
theorem fillPermissionTemplate_length_witness :
    (fillPermissionTemplate 5 "users.<action>.<target>.<role>"
        ⟨some 5, some [("action", "update")], some [("role", ["driver", "supervisor"])]⟩).length
      = allProduct (some [("role", ["driver", "supervisor"])]) :=
  fillPermissionTemplate_length 5 "users.<action>.<target>.<role>"
    ⟨some 5, some [("action", "update")], some [("role", ["driver", "supervisor"])]⟩

/-! ### Claims about not-found handling and termination -/

/-- A key held by no entry of an association list has no binding. -/
theorem mapFind_eq_none :
    ∀ (m : List (String × Role)) (k : String), (∀ e ∈ m, e.1 ≠ k) → mapFind m k = none
  | [], _, _ => rfl
  | e :: rest, k, h => by
    have he : (e.1 == k) = false :=
      beq_eq_false_iff_ne.mpr (h e (List.mem_cons_self e rest))
    simp only [mapFind, he]
    simpa using mapFind_eq_none rest k (fun x hx => h x (List.mem_cons_of_mem e hx))

/-- A successful lookup comes from an entry of the list at that key. -/
theorem mapFind_some :
    ∀ (m : List (String × Role)) (k : String) (r : Role),
      mapFind m k = some r → ∃ e ∈ m, e.1 = k ∧ e.2 = r
  | e :: rest, k, r, h => by
    by_cases he : (e.1 == k) = true
    · refine ⟨e, List.mem_cons_self e rest, by simpa using he, ?_⟩
      rw [mapFind, if_pos he] at h
      exact (Option.some.injEq _ _ ▸ h : e.2 = r)
    · rw [mapFind, if_neg he] at h
      obtain ⟨x, hx, hk, hr⟩ := mapFind_some rest k r h
      exact ⟨x, List.mem_cons_of_mem e hx, hk, hr⟩

/-- A role id absent from the registry makes the role search answer
`false` (given any positive fuel) rather than erroring. -/
theorem roleHasPermission_absent (st : Registry) (fuel : Nat) (roleId permission : String)
    (hget : getRole st roleId = none) :
    roleHasPermission st (fuel + 1) roleId permission = some false := by
  rw [roleHasPermission_succ, hget]
  by_cases h : roleId = "" <;> simp [h]

/-- C5: all not-found conditions degrade to false/absent rather than
raising: `hasPermission null p` is false; a role identifier not present
in the registry has `getRole` absent and `hasPermission` false; and an
`inherits` entry referencing an absent identifier contributes nothing to
the inheritance OR-search. -/
theorem notFound_degrades (st : Registry) :
    (∀ (fuel : Nat) (permission : String), hasPermission st fuel .null permission = some false) ∧
    (∀ (roleId : String), (∀ e ∈ st.roleMap, e.1 ≠ roleId) →
      getRole st roleId = none ∧
      ∀ (fuel : Nat) (permission : String),
        roleHasPermission st (fuel + 1) roleId permission = some false ∧
        hasPermission st (fuel + 1) (.roleId roleId) permission = some false) ∧
    (∀ (roleId : String) (rest : List String) (fuel : Nat) (permission : String),
      getRole st roleId = none →
      orListM (fun childRoleId => roleHasPermission st (fuel + 1) childRoleId permission)
          (roleId :: rest)
        = orListM (fun childRoleId => roleHasPermission st (fuel + 1) childRoleId permission)
          rest) := by
  refine ⟨fun fuel permission => rfl, ?_, ?_⟩
  · intro roleId habs
    have hget : getRole st roleId = none := mapFind_eq_none st.roleMap roleId habs
    refine ⟨hget, fun fuel permission => ?_⟩
    have hrole := roleHasPermission_absent st fuel roleId permission hget
    exact ⟨hrole, hrole⟩
  · intro roleId rest fuel permission hget
    simp [orListM, roleHasPermission_absent st fuel roleId permission hget]

/-- Witness for C5 at the empty registry and the absent id `"ghost"`. -/
theorem notFound_degrades_witness :
    hasPermission st0 1 .null "users.update" = some false ∧
    getRole st0 "ghost" = none ∧
    roleHasPermission st0 1 "ghost" "users.update" = some false ∧
    orListM (fun childRoleId => roleHasPermission st0 1 childRoleId "users.update") ["ghost"]
      = orListM (fun childRoleId => roleHasPermission st0 1 childRoleId "users.update") [] := by
  have h := notFound_degrades st0
  have h2 := h.2.1 "ghost" (fun e he => absurd he (List.not_mem_nil e))
  exact ⟨h.1 1 "users.update", h2.1, (h2.2 0 "users.update").1,
    h.2.2 "ghost" [] 0 "users.update" h2.1⟩

/-- The OR loop is defined (does not run out of fuel) when every
recursive call is. -/
theorem orListM_isSome (f : String → Option Bool) :
    ∀ (l : List String), (∀ x ∈ l, (f x).isSome) → (orListM f l).isSome
  | [], _ => rfl
  | x :: rest, h => by
    have hx := h x (List.mem_cons_self x rest)
    cases hfx : f x with
    | none =>
      rw [hfx] at hx
      cases hx
    | some b =>
      cases b with
      | false =>
        have hr := orListM_isSome f rest (fun y hy => h y (List.mem_cons_of_mem x hy))
        simpa [orListM, hfx] using hr
      | true => simp [orListM, hfx]

/-- When a rank function decreases along every `inherits` edge of the
registry, fuel exceeding the rank of the starting role suffices for the
depth-first search to complete. -/
theorem roleHasPermission_isSome (st : Registry) (rank : String → Nat)
    (hacyc : ∀ e ∈ st.roleMap, ∀ cid ∈ e.2.inherits, rank cid < rank e.1) :
    ∀ (fuel : Nat) (roleId permission : String), rank roleId < fuel →
      (roleHasPermission st fuel roleId permission).isSome := by
  intro fuel
  induction fuel with
  | zero =>
    intro roleId permission h
    exact absurd h (Nat.not_lt_zero _)
  | succ n ih =>
    intro roleId permission h
    rw [roleHasPermission_succ]
    by_cases hid : roleId = ""
    · simp [hid]
    · rw [if_neg hid]
      cases hget : getRole st roleId with
      | none => rfl
      | some role =>
        show (if (role.permissions.any fun rolePermission =>
              isPermissionMatch permission rolePermission) = true then (some true : Option Bool)
            else orListM (fun childRoleId => roleHasPermission st n childRoleId permission)
              role.inherits).isSome = true
        by_cases hperm :
            (role.permissions.any fun rolePermission =>
              isPermissionMatch permission rolePermission) = true
        · simp [hperm]
        · rw [if_neg hperm]
          apply orListM_isSome
          intro cid hcid
          apply ih
          obtain ⟨e, hmem, hkey, hsnd⟩ := mapFind_some st.roleMap roleId role hget
          have hlt : rank cid < rank roleId := by
            rw [← hkey]
            exact hacyc e hmem cid (by rw [hsnd]; exact hcid)
          omega

/-- C6: under the precondition that the `inherits` graph of the loaded
roles is acyclic (witnessed by a rank function decreasing along every
inheritance edge), `hasPermission` terminates on every input: some
finite fuel makes the depth-first search complete.  The search itself
carries no cycle guard, so acyclicity is the precondition that bounds
it. -/
theorem hasPermission_terminates (st : Registry) (rank : String → Nat)
    (hacyc : ∀ e ∈ st.roleMap, ∀ cid ∈ e.2.inherits, rank cid < rank e.1)
    (u : UserOrRoleId) (permission : String) :
    ∃ (fuel : Nat), (hasPermission st fuel u permission).isSome := by
  cases u with
  | null => exact ⟨1, rfl⟩
  | roleId id =>
    exact ⟨rank id + 1,
      roleHasPermission_isSome st rank hacyc (rank id + 1) id permission (Nat.lt_succ_self _)⟩
  | user u =>
    refine ⟨(u.roleIds.map rank).sum + 1, ?_⟩
    apply orListM_isSome
    intro rid hrid
    apply roleHasPermission_isSome st rank hacyc
    have hle : rank rid ≤ (u.roleIds.map rank).sum :=
      List.single_le_sum (fun x _ => Nat.zero_le x) _ (List.mem_map_of_mem rank hrid)
    omega

/-- The `driver` role of the spec's running example. -/
def roleDriver : Role := ⟨"driver", "Driver", ["trips.view.self"], [], true, false⟩

/-- The `supervisor` role, inheriting from `driver`. -/
def roleSupervisor : Role := ⟨"supervisor", "Supervisor", [], ["driver"], true, false⟩

/-- A registry holding the two example roles. -/
def st1 : Registry := loadRoles ⟨[], []⟩ [roleDriver, roleSupervisor]

/-- A rank function decreasing along the single inheritance edge of
`st1`. -/
def rank1 : String → Nat := fun id => if id = "supervisor" then 1 else 0

/-- Witness for C6 on the concrete acyclic two-role registry. -/
theorem hasPermission_terminates_witness :
    ∃ (fuel : Nat), (hasPermission st1 fuel (.roleId "supervisor") "trips.view.self").isSome :=
  hasPermission_terminates st1 rank1 (by decide) (.roleId "supervisor") "trips.view.self"

/-! ### Claims about the role registry -/

/-- Lemma: `mapInsert` behaves like JS object assignment at the level of
lookups: it overwrites the value at the key and leaves every other key
untouched. -/
theorem mapFind_mapInsert :
    ∀ (m : List (String × Role)) (key : String) (value : Role) (k : String),
      mapFind (mapInsert m key value) k = if k = key then some value else mapFind m k
  | [], key, value, k => by
    simp only [mapInsert, mapFind]
    by_cases h : k = key
    · subst h
      simp
    · have hk : (key == k) = false := beq_eq_false_iff_ne.mpr (fun he => h he.symm)
      simp [hk, h]
  | e :: rest, key, value, k => by
    have hrec := mapFind_mapInsert rest key value k
    simp only [mapInsert]
    by_cases h1 : (e.1 == key) = true
    · rw [if_pos h1]
      have h1e : e.1 = key := by simpa using h1
      simp only [mapFind]
      by_cases h2 : k = key
      · subst h2
        simp
      · have hk : (key == k) = false := beq_eq_false_iff_ne.mpr (fun he => h2 he.symm)
        have hek : (e.1 == k) = false := by rw [h1e]; exact hk
        simp [hk, hek, h2]
    · rw [if_neg h1]
      have h1e : e.1 ≠ key := by simpa using h1
      simp only [mapFind]
      by_cases h3 : (e.1 == k) = true
      · have h3e : e.1 = k := by simpa using h3
        have hkk : ¬(k = key) := fun hk => h1e (by rw [h3e, hk])
        simp [h3, hkk]
      · simp [h3, hrec]

/-- The last role of a list carrying a given identifier: the value that
survives the sequence of `roleMap` assignments performed by
`loadRoles`. -/
def lastWithId : List Role → String → Option Role
  | [], _ => none
  | r :: rs, k => (lastWithId rs k).elim (if r._id == k then some r else none) some

/-- One step of the `loadRoles` fold. -/
theorem loadRoles_cons (st : Registry) (r : Role) (rs : List Role) :
    loadRoles st (r :: rs)
      = loadRoles ⟨st.roles ++ [r], mapInsert st.roleMap r._id r⟩ rs := rfl

/-- Lemma: `getRole` after a `loadRoles` call: the last loaded role with the
identifier wins, and identifiers not loaded keep their previous
binding. -/
theorem getRole_loadRoles :
    ∀ (rs : List Role) (st : Registry) (k : String),
      getRole (loadRoles st rs) k = (lastWithId rs k).elim (getRole st k) some
  | [], st, k => rfl
  | r :: rs, st, k => by
    rw [loadRoles_cons, getRole_loadRoles rs]
    have hstep : getRole (⟨st.roles ++ [r], mapInsert st.roleMap r._id r⟩ : Registry) k
        = if k = r._id then some r else getRole st k :=
      mapFind_mapInsert st.roleMap r._id r k
    rw [hstep]
    show (lastWithId rs k).elim (if k = r._id then some r else getRole st k) some
        = ((lastWithId rs k).elim (if r._id == k then some r else none) some).elim
          (getRole st k) some
    cases hcase : lastWithId rs k with
    | some x => simp
    | none =>
      by_cases hk : k = r._id
      · subst hk
        simp
      · have hr : (r._id == k) = false := beq_eq_false_iff_ne.mpr (fun he => hk he.symm)
        simp [hk, hr]

/-- The `roles` array after `loadRoles` is the old array with the new
roles appended in order. -/
theorem loadRoles_roles :
    ∀ (rs : List Role) (st : Registry), (loadRoles st rs).roles = st.roles ++ rs
  | [], st => by simp [loadRoles]
  | r :: rs, st => by
    rw [loadRoles_cons, loadRoles_roles rs]
    simp

/-- C7: loading a role whose identifier already exists overwrites the
identifier-keyed map entry with the new role while appending it to the
ordered role list; calling `loadRoles` twice with the same role list
leaves `getRole` returning the same data for every identifier, while the
list holds the roles twice. -/
theorem loadRoles_duplicate_spec :
    (∀ (st : Registry) (role : Role), (∃ e ∈ st.roleMap, e.1 = role._id) →
      getRole (loadRoles st [role]) role._id = some role ∧
      (loadRoles st [role]).roles = st.roles ++ [role]) ∧
    (∀ (st : Registry) (rs : List Role) (k : String),
      getRole (loadRoles (loadRoles st rs) rs) k = getRole (loadRoles st rs) k) ∧
    (∀ (st : Registry) (rs : List Role),
      (loadRoles (loadRoles st rs) rs).roles = st.roles ++ rs ++ rs) := by
  refine ⟨?_, ?_, ?_⟩
  · intro st role _
    refine ⟨?_, loadRoles_roles [role] st⟩
    rw [getRole_loadRoles]
    simp [lastWithId]
  · intro st rs k
    rw [getRole_loadRoles rs (loadRoles st rs) k, getRole_loadRoles rs st k]
    cases hcase : lastWithId rs k with
    | some x => simp
    | none => simp [getRole_loadRoles rs st k, hcase]
  · intro st rs
    rw [loadRoles_roles, loadRoles_roles]

/-- A registry already holding the `driver` role, so that reloading it
exercises the duplicate-identifier path. -/
def st2 : Registry := loadRoles ⟨[], []⟩ [roleDriver]

/-- Witness for C7: reloading `driver` into a registry that already has
it. -/
theorem loadRoles_duplicate_spec_witness :
    getRole (loadRoles st2 [roleDriver]) "driver" = some roleDriver ∧
    (loadRoles st2 [roleDriver]).roles = st2.roles ++ [roleDriver] ∧
    getRole (loadRoles (loadRoles st2 [roleDriver]) [roleDriver]) "driver"
      = getRole (loadRoles st2 [roleDriver]) "driver" := by
  have h := loadRoles_duplicate_spec
  have h1 := h.1 st2 roleDriver ⟨("driver", roleDriver), by decide, rfl⟩
  exact ⟨h1.1, h1.2, h.2.1 st2 [roleDriver] "driver"⟩

end Authorization
